import Mathlib

/-!
# Verification of the checron crontab parser (field expander and job tokenizer)

Shallow embedding of `scheduleentity.go` (schedule-field expansion) and
`job.go` (job-line tokenization).  Strings are modelled as `List Char`
(`String.data`); Go's machine `int`/`uint64` arithmetic is modelled on `Nat`
with explicit `2 ^ 63` / `2 ^ 64` bounds where conversions can wrap.
-/

namespace Checron

/-- The set of characters with the Unicode `White_Space` property, which is
what Go's `unicode.IsSpace` (used by `strings.TrimSpace` and `fieldsN`)
reports. -/
def isSpaceGo (c : Char) : Bool :=
  c = '\t' || c = '\n' || c = '\x0b' || c = '\x0c' || c = '\r' || c = ' ' ||
  c = '\x85' || c = '\xa0' || c = '\u1680' ||
  ('\u2000' ≤ c && c ≤ '\u200a') ||
  c = '\u2028' || c = '\u2029' || c = '\u202f' || c = '\u205f' || c = '\u3000'

/-- Go's regexp Perl character class `\s`, i.e. `[\t\n\f\r ]`
(note: vertical tab is *not* in `\s`). -/
def isPerlSpace (c : Char) : Bool :=
  c = '\t' || c = '\n' || c = '\x0c' || c = '\r' || c = ' '

/-- Go's regexp Perl character class `\w`, i.e. `[0-9A-Za-z_]`. -/
def isWordChar (c : Char) : Bool :=
  c.isAlphanum || c = '_'

/-- `strings.TrimSpace`: drop `White_Space` characters from both ends. -/
def trimGo (l : List Char) : List Char :=
  ((l.dropWhile isSpaceGo).reverse.dropWhile isSpaceGo).reverse

/-- `strings.ToLower`, restricted to ASCII case mapping (the inputs exercised
by the claims are ASCII; Go performs the full Unicode mapping). -/
def toLowerGo (l : List Char) : List Char := l.map Char.toLower

/-- `strings.Split(s, sep)` for a single-character separator (the source only
splits on `","` and `"-"`).  Always returns at least one part. -/
def splitOnChar (sep : Char) : List Char → List (List Char)
  | [] => [[]]
  | c :: rest =>
    if c = sep then [] :: splitOnChar sep rest
    else
      match splitOnChar sep rest with
      | [] => [[c]]
      | g :: gs => (c :: g) :: gs

/-- `strings.SplitN(s, sep, 2)` for a single-character separator: `some`
(part before the first `sep`, part after it) when `sep` occurs, else `none`
(the source only tests `len(stuffs) == 2`). -/
def splitN2 (sep : Char) : List Char → Option (List Char × List Char)
  | [] => none
  | c :: rest =>
    if c = sep then some ([], rest)
    else (splitN2 sep rest).map fun p => (c :: p.1, p.2)

/-- Whether `p` is an initial segment of `l`. -/
def startsWith : List Char → List Char → Bool
  | [], _ => true
  | _ :: _, [] => false
  | p :: ps, c :: cs => p = c && startsWith ps cs

/-- Worker for `replaceAll`; `fuel` bounds the recursion (the pattern is
always nonempty at call sites, so `fuel = s.length` suffices). -/
def replaceAux (pat rep : List Char) : Nat → List Char → List Char
  | 0, s => s
  | _ + 1, [] => []
  | fuel + 1, c :: rest =>
    if startsWith pat (c :: rest) then
      rep ++ replaceAux pat rep fuel ((c :: rest).drop pat.length)
    else c :: replaceAux pat rep fuel rest

/-- `strings.Replace(s, pat, rep, -1)`: replace every non-overlapping
occurrence of `pat` in `s`, left to right. -/
def replaceAll (s pat rep : List Char) : List Char :=
  replaceAux pat rep s.length s

/-- Decimal rendering of a natural number (`fmt.Sprintf("%d", i)`). -/
def natToChars (n : Nat) : List Char := Nat.toDigits 10 n

/-- `scheduleType` from `scheduleentity.go`. -/
inductive scheduleType where
  | scheduleMinute
  | scheduleHour
  | scheduleDay
  | scheduleMonth
  | scheduleDayOfWeek
deriving DecidableEq, Repr

export scheduleType (scheduleMinute scheduleHour scheduleDay scheduleMonth scheduleDayOfWeek)

/-- `entityParam`: the per-kind domain and alias table. -/
structure entityParam where
  Range : Nat × Nat
  Aliases : List String
deriving Repr

/-- The `entityParams` table.  In the source it is a map holding exactly the
five `scheduleType` constants, so the lookup is total and the
`no entity param setting` error branch of `init` is unreachable. -/
def entityParams : scheduleType → entityParam
  | scheduleMinute => { Range := (0, 59), Aliases := [] }
  | scheduleHour => { Range := (0, 23), Aliases := [] }
  | scheduleDay => { Range := (1, 31), Aliases := [] }
  | scheduleMonth =>
    { Range := (1, 12),
      Aliases := ["", "jan", "feb", "mar", "apr", "may", "jun", "jul", "aug",
                  "sep", "oct", "nov", "dec"] }
  | scheduleDayOfWeek =>
    { Range := (0, 7),
      Aliases := ["sun", "mon", "tue", "wed", "thu", "fri", "sat"] }

/-- The alias-substitution loop of `init`: for each alias (skipping the empty
placeholder), replace every occurrence by its index rendered in decimal. -/
def aliasSubst (aliases : List String) (s : List Char) : List Char :=
  aliases.enum.foldl
    (fun acc p => if p.2 = "" then acc else replaceAll acc p.2.data (natToChars p.1))
    s

/-- A 1–2 digit decimal token, i.e. what `\d{1,2}` accepts. -/
def digits12 (l : List Char) : Bool :=
  (l.length = 1 || l.length = 2) && l.all Char.isDigit

/-- Decimal value of a digit string. -/
def digitsVal (l : List Char) : Nat :=
  l.foldl (fun n c => n * 10 + (c.toNat - 48)) 0

/-- `strconv.ParseUint(s, 10, 64)`: succeeds exactly on nonempty all-digit
strings whose value fits in 64 bits. -/
def parseUint10 (l : List Char) : Option Nat :=
  if l.isEmpty then none
  else if l.all Char.isDigit then
    if digitsVal l < 2 ^ 64 then some (digitsVal l) else none
  else none

/-- `parseRange` from `scheduleentity.go`.  `"*"` yields the full domain; a
token matching `^(\d{1,2})-(\d{1,2})$` yields `[a, b]` unless
`a >= b || a < rng.1 || b > rng.2`.  `none` is the
`invalid range: <item>` error. -/
def parseRange (item : List Char) (rng : Nat × Nat) : Option (Nat × Nat) :=
  if item = ['*'] then some rng
  else
    match splitOnChar '-' item with
    | [a, b] =>
      if digits12 a && digits12 b then
        let mi := digitsVal a
        let ma := digitsVal b
        if mi ≥ ma || mi < rng.1 || ma > rng.2 then none
        else some (mi, ma)
      else none
    | _ => none

/-- The error values produced by `init` (`fmt.Errorf` strings in the source,
modelled as constructors carrying the same data). -/
inductive ExpandErr where
  /-- `invalid entity: <raw>` (plain value out of domain). -/
  | invalidEntity (raw : String)
  /-- `invalid entity: <raw>, invalid range: <item>`. -/
  | invalidRange (raw : String) (item : String)
  /-- `invalid increments: <step> in <raw>`. -/
  | invalidIncrements (step : String) (raw : String)
deriving DecidableEq, Repr

/-- The stepped-range walk of `init`: every value of the range paired with a
zero-based counter; a value is kept when `counter mod incrAbs == 0`.
`incrAbs` is the absolute value of the Go `int` the step converts to. -/
def stepKeep (a b incrAbs : Nat) : List Nat :=
  (List.range' a (b + 1 - a)).enum.filterMap
    fun p => if p.1 % incrAbs = 0 then some p.2 else none

/-- Handling of one comma-separated item inside `init`. -/
def processItem (raw : String) (rng : Nat × Nat) (item : List Char) :
    Except ExpandErr (List Nat) :=
  match splitN2 '/' item with
  | some (rpart, spart) =>
    match parseRange rpart rng with
    | none => .error (.invalidRange raw (String.mk rpart))
    | some (a, b) =>
      match parseUint10 spart with
      | none => .error (.invalidIncrements (String.mk spart) raw)
      | some increments =>
        if increments = 0 then .error (.invalidIncrements (String.mk spart) raw)
        else
          -- `incr := int(increments)` truncates to a signed 64-bit value; for
          -- a non-negative counter, Go's `counter % incr` equals
          -- `counter % |incr|`.
          let incrAbs := if increments < 2 ^ 63 then increments else 2 ^ 64 - increments
          .ok (stepKeep a b incrAbs)
  | none =>
    match parseUint10 item with
    | some n =>
      -- `num := int(n)` is negative for `n ≥ 2 ^ 63`, hence below the domain.
      if 2 ^ 63 ≤ n || n < rng.1 || n > rng.2 then .error (.invalidEntity raw)
      else .ok [n]
    | none =>
      match parseRange item rng with
      | none => .error (.invalidRange raw (String.mk item))
      | some (a, b) => .ok (List.range' a (b + 1 - a))

/-- The accumulation loop of `init` over the comma-separated items: first
error wins, otherwise all matched values are concatenated in order. -/
def expandItems (raw : String) (rng : Nat × Nat) :
    List (List Char) → Except ExpandErr (List Nat)
  | [] => .ok []
  | item :: rest =>
    match processItem raw rng item with
    | .error e => .error e
    | .ok vs =>
      match expandItems raw rng rest with
      | .error e => .error e
      | .ok tail => .ok (vs ++ tail)

/-- The deduplication loop of `init` (`seen` set, keep first occurrences). -/
def uniqAux (seen : List Nat) : List Nat → List Nat
  | [] => []
  | v :: rest =>
    if v ∈ seen then uniqAux seen rest else v :: uniqAux (v :: seen) rest

/-- Deduplicate preserving first occurrences. -/
def uniq (l : List Nat) : List Nat := uniqAux [] l

/-- `sort.Ints`: the sorted permutation of the list. -/
def sortInts (l : List Nat) : List Nat := List.insertionSort (· ≤ ·) l

/-- The tail of `init` after all items are accumulated: the day-of-week
Sunday fold (if `7` occurs, also append `0`), then dedup + sort. -/
def postProcess (st : scheduleType) (expanded : List Nat) : List Nat :=
  let expanded2 :=
    if st = scheduleDayOfWeek ∧ 7 ∈ expanded then expanded ++ [0] else expanded
  sortInts (uniq expanded2)

/-- `newScheduleEntity`/`init`: expand a raw field string for a kind into its
matched value set, or the first parse error. -/
def expandField (raw : String) (st : scheduleType) : Except ExpandErr (List Nat) :=
  let ep := entityParams st
  let entity := aliasSubst ep.Aliases (toLowerGo raw.data)
  match expandItems raw ep.Range (splitOnChar ',' entity) with
  | .error e => .error e
  | .ok expanded => .ok (postProcess st expanded)

/-! ## Job tokenizer (`job.go`) -/

/-- The error value of `Job.parse`: either the `field: %q is invalid` error
carrying the raw line, or an error propagated from the external
`ParseSchedule` collaborator. -/
inductive JobErr (ε : Type) where
  | invalidField (raw : String)
  | sched (e : ε)
deriving DecidableEq

/-- `Job` from `job.go`.  The environment is stored opaquely (type `E`); the
schedule is the opaque value produced by the external collaborator (type
`σ`).  Zero values: empty strings, `none`. -/
structure Job (E σ ε : Type) where
  raw : String
  env : E
  user : String
  command : String
  schedule : Option σ
  err : Option (JobErr ε)

/-- A `Job` fresh out of `ParseJob`'s literal, before `parse` runs: only
`raw` and `env` set, all other fields zero. -/
def mkJob {E σ ε : Type} (raw : String) (env : E) : Job E σ ε :=
  { raw := raw, env := env, user := "", command := "", schedule := none, err := none }

/-- Worker loop of `fieldsN`: scans rune by rune with the remaining-fields
counter `n` (a Go `int`), the current token buffer (kept reversed) and the
accumulated fields.  When `n < 2` the rest of the string from the current
rune is trimmed and emitted, the loop breaks, and a nonempty buffer is
flushed after the loop. -/
def fieldsNAux : List Char → Int → List Char → List String → List String
  | [], _, buf, acc =>
    if buf.isEmpty then acc else acc ++ [String.mk buf.reverse]
  | c :: rest, n, buf, acc =>
    if n < 2 then
      let acc2 := acc ++ [String.mk (trimGo (c :: rest))]
      if buf.isEmpty then acc2 else acc2 ++ [String.mk buf.reverse]
    else if isSpaceGo c then
      if buf.isEmpty then fieldsNAux rest n buf acc
      else fieldsNAux rest (n - 1) [] (acc ++ [String.mk buf.reverse])
    else fieldsNAux rest n (c :: buf) acc

/-- `fieldsN` from `job.go`: limited whitespace split — the first `n - 1`
fields are whitespace-delimited tokens, the final field is the rest of the
(trimmed) string verbatim, trimmed of outer whitespace. -/
def fieldsNGo (s : String) (n : Int) : List String :=
  fieldsNAux (trimGo s.data) n [] []

/-- First alternative of `scheduleReg` = `^(@\w+|(?:\S+\s+){5})(.*)$`:
`@\w+` followed by `(.*)$`.  The greedy `\w+` takes the maximal word-char
run; the match succeeds iff the remainder contains no newline (`.` does not
match `\n`, and giving back word characters cannot remove the newline, so
backtracking never helps). -/
def branch1 (t : List Char) : Option (List Char × List Char) :=
  match t with
  | c :: rest =>
    if c = '@' then
      let w := rest.takeWhile isWordChar
      let r := rest.dropWhile isWordChar
      if w.isEmpty || r.contains '\n' then none else some ('@' :: w, r)
    else none
  | [] => none

/-- `k` repetitions of `\S+\s+`, returning the consumed prefix and the rest.
Because `\S` and `\s` are complementary, every `\S+` must take a maximal
nonspace run and every inter-repetition `\s+` a maximal space run; the final
`\s+` is also maximal since shrinking it leaves the remainder starting with
a space while any newline that made `(.*)$` fail stays in the remainder. -/
def consumeReps : Nat → List Char → Option (List Char × List Char)
  | 0, l => some ([], l)
  | k + 1, l =>
    let tok := l.takeWhile fun c => !isPerlSpace c
    let r1 := l.dropWhile fun c => !isPerlSpace c
    if tok.isEmpty then none
    else
      let ws := r1.takeWhile isPerlSpace
      let r2 := r1.dropWhile isPerlSpace
      if ws.isEmpty then none
      else
        match consumeReps k r2 with
        | none => none
        | some p => some (tok ++ ws ++ p.1, p.2)

/-- Second alternative of `scheduleReg`: `(?:\S+\s+){5}` followed by
`(.*)$`. -/
def branch2 (t : List Char) : Option (List Char × List Char) :=
  match consumeReps 5 t with
  | none => none
  | some (m1, rest) => if rest.contains '\n' then none else some (m1, rest)

/-- `scheduleReg.FindStringSubmatch` on the (already trimmed) line: Go's
regexp uses leftmost-first alternation, so the `@\w+` branch is preferred;
the result is (submatch 1, submatch 2). -/
def matchScheduleReg (t : List Char) : Option (List Char × List Char) :=
  match branch1 t with
  | some m => some m
  | none => branch2 t

/-- `ParseJob`/`Job.parse` from `job.go`.  The external `ParseSchedule`
collaborator is a parameter `ps` (spec §1: out-of-scope black box returning
a schedule or an error). -/
def parseJob {E σ ε : Type} (raw : String) (hasUser : Bool) (env : E)
    (ps : String → Except ε σ) : Job E σ ε :=
  let base : Job E σ ε := mkJob raw env
  match matchScheduleReg (trimGo raw.data) with
  | none => { base with err := some (.invalidField raw) }
  | some (m1, m2) =>
    match ps (String.mk (trimGo m1)) with
    | .error e => { base with err := some (.sched e) }
    | .ok sch =>
      if hasUser then
        match fieldsNGo (String.mk m2) 2 with
        | [u, c] => { base with schedule := some sch, user := u, command := c }
        | _ => { base with schedule := some sch, err := some (.invalidField raw) }
      else { base with schedule := some sch, command := String.mk m2 }

/-- A trivially succeeding collaborator used for concrete evaluations: it
hands back the schedule text itself. -/
def psId : String → Except Unit String := fun s => Except.ok s

example : expandField "*/15" scheduleMinute = .ok [0, 15, 30, 45] := rfl
example : expandField "1-10/3" scheduleMinute = .ok [1, 4, 7, 10] := rfl
example : expandField "mon,wed,fri" scheduleDayOfWeek = .ok [1, 3, 5] := rfl
example : expandField "7" scheduleDayOfWeek = .ok [0, 7] := rfl
example : expandField "0,7" scheduleDayOfWeek = .ok [0, 7] := rfl
example : expandField "5-5" scheduleMinute = .error (.invalidRange "5-5" "5-5") := rfl
example : expandField "*" scheduleDayOfWeek = .ok [0, 1, 2, 3, 4, 5, 6, 7] := rfl
example : expandField "60" scheduleMinute = .error (.invalidEntity "60") := rfl

example : (parseJob "@daily  echo hi" false () psId).command = "  echo hi" := rfl
example : (parseJob "@daily  echo hi" false () psId).schedule = some "@daily" := rfl
example : (parseJob "*/5 * * * * root echo  hi" true () psId).user = "root" := rfl
example : (parseJob "*/5 * * * * root echo  hi" true () psId).command = "echo  hi" := rfl
example : (parseJob "*/5 * * * * root echo  hi" true () psId).schedule = some "*/5 * * * *" := rfl
example : (parseJob "* * * * * root" true () psId).err = some (.invalidField "* * * * * root") := rfl
example : (parseJob "* * * * * root" true () psId).schedule = some "* * * * *" := rfl
example : (parseJob "@a b c d e" false () psId).err = none := rfl
example : (parseJob "@a b c d e" false () psId).schedule = some "@a" := rfl
example : (parseJob "* * * *" false () psId).err = some (.invalidField "* * * *") := rfl
example : (parseJob "* * * * *" true () psId).err = some (.invalidField "* * * * *") := rfl
example : fieldsNGo "root echo  hi" 2 = ["root", "echo  hi"] := rfl

/-! ## List helper lemmas -/

theorem takeWhile_append_run {α : Type} {p : α → Bool} {f : List α} (rest : List α)
    (hf : ∀ c ∈ f, p c = true) :
    (f ++ rest).takeWhile p = f ++ rest.takeWhile p := by
  induction f with
  | nil => simp
  | cons c f ih =>
    have hc : p c = true := hf c (List.mem_cons_self c f)
    simp only [List.cons_append, List.takeWhile_cons, hc, if_true]
    rw [ih fun x hx => hf x (List.mem_cons_of_mem c hx)]

theorem dropWhile_append_run {α : Type} {p : α → Bool} {f : List α} (rest : List α)
    (hf : ∀ c ∈ f, p c = true) :
    (f ++ rest).dropWhile p = rest.dropWhile p := by
  induction f with
  | nil => simp
  | cons c f ih =>
    have hc : p c = true := hf c (List.mem_cons_self c f)
    simp only [List.cons_append, List.dropWhile_cons, hc, if_true]
    exact ih fun x hx => hf x (List.mem_cons_of_mem c hx)

theorem takeWhile_cons_neg {α : Type} {p : α → Bool} {c : α} (l : List α)
    (hc : p c = false) : (c :: l).takeWhile p = [] := by
  simp [List.takeWhile_cons, hc]

theorem dropWhile_cons_neg {α : Type} {p : α → Bool} {c : α} (l : List α)
    (hc : p c = false) : (c :: l).dropWhile p = c :: l := by
  simp [List.dropWhile_cons, hc]

theorem takeWhile_run {α : Type} {p : α → Bool} {f : List α}
    (hf : ∀ c ∈ f, p c = true) : f.takeWhile p = f := by
  have := takeWhile_append_run (p := p) (f := f) [] hf
  simpa using this

theorem dropWhile_run {α : Type} {p : α → Bool} {f : List α}
    (hf : ∀ c ∈ f, p c = true) : f.dropWhile p = [] := by
  have := dropWhile_append_run (p := p) (f := f) [] hf
  simpa using this

/-- Splitting a token run from a string whose remainder starts with a
non-`p` element (or is empty). -/
theorem takeWhile_append_boundary {α : Type} {p : α → Bool} {f rest : List α}
    (hf : ∀ c ∈ f, p c = true)
    (hrest : rest = [] ∨ ∃ c rest', rest = c :: rest' ∧ p c = false) :
    (f ++ rest).takeWhile p = f ∧ (f ++ rest).dropWhile p = rest := by
  rcases hrest with rfl | ⟨c, rest', rfl, hc⟩
  · constructor
    · simpa using takeWhile_run hf
    · simpa using dropWhile_run hf
  · constructor
    · rw [takeWhile_append_run _ hf, takeWhile_cons_neg _ hc, List.append_nil]
    · rw [dropWhile_append_run _ hf, dropWhile_cons_neg _ hc]

/-! ### `uniq` -/

theorem mem_uniqAux {x : Nat} : ∀ (l seen : List Nat),
    x ∈ uniqAux seen l ↔ x ∈ l ∧ x ∉ seen := by
  intro l
  induction l with
  | nil => intro seen; simp [uniqAux]
  | cons v rest ih =>
    intro seen
    by_cases hv : v ∈ seen
    · simp only [uniqAux, if_pos hv, ih]
      constructor
      · rintro ⟨hx, hs⟩; exact ⟨List.mem_cons_of_mem v hx, hs⟩
      · rintro ⟨hx, hs⟩
        rcases List.mem_cons.mp hx with rfl | hx
        · exact absurd hv hs
        · exact ⟨hx, hs⟩
    · simp only [uniqAux, if_neg hv]
      constructor
      · intro hmem
        rcases List.mem_cons.mp hmem with rfl | hmem2
        · exact ⟨List.mem_cons_self x rest, hv⟩
        · have h2 := (ih (v :: seen)).mp hmem2
          exact ⟨List.mem_cons_of_mem v h2.1,
            fun hs => h2.2 (List.mem_cons_of_mem v hs)⟩
      · rintro ⟨hx, hs⟩
        rcases List.mem_cons.mp hx with rfl | hx
        · exact List.mem_cons_self x _
        · by_cases hxv : x = v
          · subst hxv; exact List.mem_cons_self x _
          · refine List.mem_cons_of_mem v ((ih (v :: seen)).mpr ⟨hx, fun h => ?_⟩)
            rcases List.mem_cons.mp h with h | h
            · exact hxv h
            · exact hs h

theorem nodup_uniqAux : ∀ (l seen : List Nat), (uniqAux seen l).Nodup := by
  intro l
  induction l with
  | nil => intro seen; simp [uniqAux]
  | cons v rest ih =>
    intro seen
    by_cases hv : v ∈ seen
    · simpa [uniqAux, if_pos hv] using ih seen
    · simp only [uniqAux, if_neg hv]
      refine List.nodup_cons.mpr ⟨fun hmem => ?_, ih (v :: seen)⟩
      exact ((mem_uniqAux rest (v :: seen)).mp hmem).2 (List.mem_cons_self v seen)

theorem mem_uniq {x : Nat} {l : List Nat} : x ∈ uniq l ↔ x ∈ l := by
  simp [uniq, mem_uniqAux]

theorem nodup_uniq (l : List Nat) : (uniq l).Nodup := nodup_uniqAux l []

/-! ### `sortInts` -/

theorem perm_sortInts (l : List Nat) : List.Perm (sortInts l) l :=
  List.perm_insertionSort _ l

theorem mem_sortInts {x : Nat} {l : List Nat} : x ∈ sortInts l ↔ x ∈ l :=
  (perm_sortInts l).mem_iff

theorem sorted_le_sortInts (l : List Nat) : (sortInts l).Sorted (· ≤ ·) :=
  List.sorted_insertionSort _ l

theorem nodup_sortInts {l : List Nat} (h : l.Nodup) : (sortInts l).Nodup :=
  (perm_sortInts l).nodup_iff.mpr h

theorem sorted_lt_sortInts {l : List Nat} (h : l.Nodup) :
    (sortInts l).Sorted (· < ·) :=
  (sorted_le_sortInts l).lt_of_le (nodup_sortInts h)

/-! ### Domain bounds of the expander -/

theorem parseRange_bounds {item : List Char} {rng : Nat × Nat} {a b : Nat}
    (h : parseRange item rng = some (a, b)) : rng.1 ≤ a ∧ b ≤ rng.2 := by
  unfold parseRange at h
  split at h
  · cases h; exact ⟨Nat.le_refl _, Nat.le_refl _⟩
  · split at h
    · split at h
      · dsimp only at h
        split at h
        · cases h
        · cases h
          rename_i hcond
          simp only [Bool.or_eq_true, decide_eq_true_eq, not_or] at hcond
          omega
      · cases h
    · cases h

theorem snd_mem_of_mem_enumFrom {α : Type} {p : Nat × α} :
    ∀ (l : List α) (i : Nat), p ∈ List.enumFrom i l → p.2 ∈ l := by
  intro l
  induction l with
  | nil => intro i h; cases h
  | cons x xs ih =>
    intro i h
    rcases List.mem_cons.mp h with rfl | h
    · exact List.mem_cons_self x xs
    · exact List.mem_cons_of_mem x (ih (i + 1) h)

theorem mem_stepKeep_bounds {a b k x : Nat} (h : x ∈ stepKeep a b k) :
    a ≤ x ∧ x ≤ b := by
  unfold stepKeep at h
  rcases List.mem_filterMap.mp h with ⟨p, hp, hsome⟩
  have hx : p.2 = x := by
    by_cases hc : p.1 % k = 0
    · simpa [hc] using hsome
    · simp [hc] at hsome
  have hmem : x ∈ List.range' a (b + 1 - a) := by
    rw [← hx]; exact snd_mem_of_mem_enumFrom _ 0 hp
  have := List.mem_range'_1.mp hmem
  omega

theorem mem_range'_bounds {a b x : Nat} (h : x ∈ List.range' a (b + 1 - a)) :
    a ≤ x ∧ x ≤ b := by
  have := List.mem_range'_1.mp h
  omega

theorem processItem_bounds {raw : String} {rng : Nat × Nat} {item : List Char}
    {vs : List Nat} (h : processItem raw rng item = .ok vs) :
    ∀ x ∈ vs, rng.1 ≤ x ∧ x ≤ rng.2 := by
  intro x hx
  unfold processItem at h
  split at h
  · -- item contains '/': stepped range
    rename_i rpart spart heq
    split at h
    · cases h
    · rename_i a b hrange
      split at h
      · cases h
      · split at h
        · cases h
        · cases h
          have hb := parseRange_bounds hrange
          have := mem_stepKeep_bounds hx
          omega
  · -- plain value or bare range
    split at h
    · rename_i n hn
      split at h
      · cases h
      · cases h
        rename_i hcond
        simp only [Bool.or_eq_true, decide_eq_true_eq, not_or] at hcond
        rcases List.mem_singleton.mp hx with rfl
        omega
    · split at h
      · cases h
      · rename_i a b hrange
        cases h
        have hb := parseRange_bounds hrange
        have := mem_range'_bounds hx
        omega

theorem expandItems_bounds {raw : String} {rng : Nat × Nat} :
    ∀ {items : List (List Char)} {vs : List Nat},
      expandItems raw rng items = .ok vs → ∀ x ∈ vs, rng.1 ≤ x ∧ x ≤ rng.2 := by
  intro items
  induction items with
  | nil =>
    intro vs h x hx
    cases h
    cases hx
  | cons item rest ih =>
    intro vs h x hx
    unfold expandItems at h
    split at h
    · cases h
    · rename_i vs1 h1
      split at h
      · cases h
      · rename_i tail h2
        cases h
        rcases List.mem_append.mp hx with hx | hx
        · exact processItem_bounds h1 x hx
        · exact ih h2 x hx

/-- The counter-indexed walk over a range keeps exactly the values whose
offset from the range start is divisible by the step. -/
theorem enumFrom_filterMap_range' {s : Nat} :
    ∀ (n a j : Nat),
      (List.enumFrom j (List.range' a n)).filterMap
          (fun p => if p.1 % s = 0 then some p.2 else none)
        = (List.range' a n).filter fun v => decide ((v + j - a) % s = 0) := by
  intro n
  induction n with
  | zero => intro a j; rfl
  | succ n ih =>
    intro a j
    rw [List.range'_succ]
    simp only [List.enumFrom_cons, List.filterMap_cons, List.filter_cons]
    have hhead : a + j - a = j := by omega
    rw [hhead]
    have htail :
        (List.range' (a + 1) n).filter (fun v => decide ((v + j - a) % s = 0))
          = (List.range' (a + 1) n).filter
              fun v => decide ((v + (j + 1) - (a + 1)) % s = 0) := by
      refine List.filter_congr fun v hv => ?_
      have hva := (List.mem_range'_1.mp hv).1
      have hx : v + j - a = v + (j + 1) - (a + 1) := by omega
      rw [hx]
    rw [ih (a + 1) (j + 1), ← htail]
    by_cases hj : j % s = 0
    · simp [hj]
    · simp [hj]

/-- `stepKeep` in filter form, for steps whose `int` conversion is positive. -/
theorem stepKeep_eq_filter (a b s : Nat) :
    stepKeep a b s
      = (List.range' a (b + 1 - a)).filter fun v => decide ((v - a) % s = 0) := by
  unfold stepKeep
  rw [show (List.range' a (b + 1 - a)).enum
        = List.enumFrom 0 (List.range' a (b + 1 - a)) from rfl]
  rw [enumFrom_filterMap_range' (b + 1 - a) a 0]
  simp only [Nat.add_zero]

/-! ### `splitOnChar` -/

theorem splitOnChar_ne_nil (sep : Char) : ∀ l : List Char, splitOnChar sep l ≠ [] := by
  intro l
  induction l with
  | nil => simp [splitOnChar]
  | cons c rest ih =>
    by_cases hc : c = sep
    · simp [splitOnChar, hc]
    · simp only [splitOnChar, if_neg hc]
      rcases hsp : splitOnChar sep rest with _ | ⟨g, gs⟩
      · simp
      · simp

theorem splitOnChar_eq_single {sep : Char} :
    ∀ {l v : List Char}, splitOnChar sep l = [v] → l = v := by
  intro l
  induction l with
  | nil =>
    intro v h
    simpa [splitOnChar] using h.symm
  | cons c rest ih =>
    intro v h
    by_cases hc : c = sep
    · simp only [splitOnChar, if_pos hc] at h
      injection h with h1 h2
      exact absurd h2 (splitOnChar_ne_nil sep rest)
    · simp only [splitOnChar, if_neg hc] at h
      rcases hsp : splitOnChar sep rest with _ | ⟨g, gs⟩
      · exact absurd hsp (splitOnChar_ne_nil sep rest)
      · rw [hsp] at h
        injection h with h1 h2
        subst h2
        rw [← h1, ih hsp]

theorem splitOnChar_eq_pair {sep : Char} :
    ∀ {l u v : List Char}, splitOnChar sep l = [u, v] → l = u ++ sep :: v := by
  intro l
  induction l with
  | nil =>
    intro u v h
    simp only [splitOnChar] at h
    injection h with h1 h2
    exact absurd h2.symm (List.cons_ne_nil v [])
  | cons c rest ih =>
    intro u v h
    by_cases hc : c = sep
    · simp only [splitOnChar, if_pos hc] at h
      injection h with h1 h2
      rw [← h1, hc, splitOnChar_eq_single h2]
      rfl
    · simp only [splitOnChar, if_neg hc] at h
      rcases hsp : splitOnChar sep rest with _ | ⟨g, gs⟩
      · exact absurd hsp (splitOnChar_ne_nil sep rest)
      · rw [hsp] at h
        injection h with h1 h2
        subst h2
        rw [← h1, List.cons_append, ih hsp]

theorem splitOnChar_of_no_sep {sep : Char} :
    ∀ {l : List Char}, (∀ c ∈ l, c ≠ sep) → splitOnChar sep l = [l] := by
  intro l
  induction l with
  | nil => intro _; rfl
  | cons c rest ih =>
    intro h
    have hc : ¬ c = sep := h c (List.mem_cons_self c rest)
    simp only [splitOnChar, if_neg hc]
    rw [ih fun x hx => h x (List.mem_cons_of_mem c hx)]

theorem splitOnChar_append {sep : Char} {u v : List Char}
    (hu : ∀ c ∈ u, c ≠ sep) (hv : ∀ c ∈ v, c ≠ sep) :
    splitOnChar sep (u ++ sep :: v) = [u, v] := by
  induction u with
  | nil =>
    simp [splitOnChar, splitOnChar_of_no_sep hv]
  | cons c u' ih =>
    have hc : ¬ c = sep := hu c (List.mem_cons_self c u')
    have ih' := ih fun x hx => hu x (List.mem_cons_of_mem c hx)
    simp [splitOnChar, hc, ih']

/-! ## Claim theorems -/

/-- Claim C1: for every raw field string and FieldKind on which `expand`
succeeds, the expanded list is strictly sorted ascending, has no duplicate
values, and every value lies within the kind's closed domain `[min, max]`
(for DayOfWeek the domain is `0–7`, so both `0` and `7` may be present). -/
theorem C1_expand_invariant (raw : String) (st : scheduleType) (l : List Nat)
    (h : expandField raw st = .ok l) :
    l.Sorted (· < ·) ∧ l.Nodup ∧
      ∀ v ∈ l, (entityParams st).Range.1 ≤ v ∧ v ≤ (entityParams st).Range.2 := by
  unfold expandField at h
  dsimp only at h
  split at h
  · cases h
  · rename_i expanded hitems
    cases h
    have hbounds := expandItems_bounds hitems
    simp only [postProcess]
    have hbounds2 :
        ∀ v ∈ (if st = scheduleDayOfWeek ∧ 7 ∈ expanded
               then expanded ++ [0] else expanded),
          (entityParams st).Range.1 ≤ v ∧ v ≤ (entityParams st).Range.2 := by
      intro v hv
      split at hv
      · rename_i hcond
        rcases List.mem_append.mp hv with hv | hv
        · exact hbounds v hv
        · rcases List.mem_singleton.mp hv with rfl
          rcases hcond with ⟨hst, _⟩
          subst hst
          exact ⟨Nat.le_refl 0, by decide⟩
      · exact hbounds v hv
    refine ⟨sorted_lt_sortInts (nodup_uniq _), nodup_sortInts (nodup_uniq _), ?_⟩
    intro v hv
    exact hbounds2 v (mem_uniq.mp (mem_sortInts.mp hv))

/-- Concrete instantiation of `C1_expand_invariant` at `expand("1-10/3", Minute)`. -/
theorem C1_witness :
    expandField "1-10/3" scheduleMinute = Except.ok [1, 4, 7, 10] ∧
      (List.Sorted (· < ·) [1, 4, 7, 10] ∧ List.Nodup [1, 4, 7, 10]) :=
  ⟨rfl,
    (C1_expand_invariant "1-10/3" scheduleMinute [1, 4, 7, 10] rfl).1,
    (C1_expand_invariant "1-10/3" scheduleMinute [1, 4, 7, 10] rfl).2.1⟩

/-- Claim C2 counterexample: the claim quantifies over every step `s` that
parses as a positive integer, but for `s = 18446744073709551613 = 2^64 − 3`
(which `strconv.ParseUint` accepts) the conversion `incr := int(increments)`
wraps to `-3`, so the code keeps every third value of the range instead of
the values `a, a + s, …` the claim predicts (here just `{0}`, since
`0 + s > 59`). -/
theorem C2_counterexample :
    expandField "*/18446744073709551613" scheduleMinute
      ≠ .ok ((List.range' 0 60).filter
          fun v => decide ((v - 0) % 18446744073709551613 = 0)) := fun h =>
  absurd
    (Except.ok.inj
      ((show expandField "*/18446744073709551613" scheduleMinute
          = Except.ok [0, 3, 6, 9, 12, 15, 18, 21, 24, 27, 30, 33, 36, 39, 42,
                       45, 48, 51, 54, 57] from rfl).symm.trans h))
    (by decide)

/-- Claim C2 (amended): for every item `R/s` whose range part resolves to
`[a, b]` and whose step parses as a positive integer *below `2^63`* (larger
steps wrap through the 64-bit `int` conversion and behave as
`counter mod (2^64 − s)`), the kept values are exactly those `v ∈ [a, b]`
with `(v − a) mod s = 0`, i.e. `a, a+s, a+2s, …` up to `b` — zero-based
relative to the range start; in particular `expand("*/15", Minute)` is
`{0,15,30,45}` and `expand("1-10/3", Minute)` is `{1,4,7,10}`. -/
theorem C2_step_semantics :
    (∀ (raw : String) (rng : Nat × Nat) (item rpart spart : List Char)
        (a b s : Nat),
        splitN2 '/' item = some (rpart, spart) →
        parseRange rpart rng = some (a, b) →
        parseUint10 spart = some s →
        0 < s → s < 2 ^ 63 →
        processItem raw rng item
          = .ok ((List.range' a (b + 1 - a)).filter
              fun v => decide ((v - a) % s = 0)))
      ∧ expandField "*/15" scheduleMinute = .ok [0, 15, 30, 45]
      ∧ expandField "1-10/3" scheduleMinute = .ok [1, 4, 7, 10] := by
  refine ⟨?_, rfl, rfl⟩
  intro raw rng item rpart spart a b s hsplit hrange hstep hpos hlt
  unfold processItem
  rw [hsplit]
  simp only [hrange, hstep]
  rw [if_neg (by omega : ¬ s = 0), if_pos hlt, stepKeep_eq_filter]

/-- Concrete instantiation of `C2_step_semantics` at `"*/15"` for Minute. -/
theorem C2_witness :
    processItem "*/15" (0, 59) ['*', '/', '1', '5']
      = Except.ok ((List.range' 0 60).filter fun v => decide ((v - 0) % 15 = 0)) :=
  C2_step_semantics.1 "*/15" (0, 59) ['*', '/', '1', '5'] ['*'] ['1', '5']
    0 59 15 rfl rfl rfl (by decide) (by decide)

/-- Claim C3: range resolution succeeds on exactly two shapes — the literal
`*` (full domain) and two 1–2 digit decimal numbers `a-b` with `a < b` and
both within the domain; every other shape or violated constraint fails (the
`invalid range` error carries the item text, which `init` wraps into
`ExpandErr.invalidRange`); `expand("5-5", Minute)` fails and `*` expands to
the full contiguous domain for every kind. -/
theorem C3_parseRange_characterization :
    (∀ (item : List Char) (rng : Nat × Nat) (a b : Nat),
        parseRange item rng = some (a, b) ↔
          ((item = ['*'] ∧ a = rng.1 ∧ b = rng.2) ∨
            (∃ u v : List Char,
              item = u ++ '-' :: v ∧ digits12 u = true ∧ digits12 v = true ∧
                a = digitsVal u ∧ b = digitsVal v ∧ a < b ∧
                rng.1 ≤ a ∧ b ≤ rng.2)))
      ∧ expandField "5-5" scheduleMinute = .error (.invalidRange "5-5" "5-5")
      ∧ ∀ st : scheduleType,
          expandField "*" st
            = .ok (List.range' (entityParams st).Range.1
                ((entityParams st).Range.2 + 1 - (entityParams st).Range.1)) := by
  refine ⟨?_, rfl, ?_⟩
  · intro item rng a b
    constructor
    · intro h
      unfold parseRange at h
      split at h
      · rename_i hstar
        cases h
        exact Or.inl ⟨hstar, rfl, rfl⟩
      · rename_i hstar
        split at h
        · rename_i u v hsp
          split at h
          · rename_i hdig
            dsimp only at h
            split at h
            · cases h
            · rename_i hcond
              cases h
              simp only [Bool.or_eq_true, decide_eq_true_eq, not_or] at hcond
              have hdig' : digits12 u = true ∧ digits12 v = true := by
                simpa using hdig
              exact Or.inr ⟨u, v, splitOnChar_eq_pair hsp, hdig'.1, hdig'.2,
                rfl, rfl, by omega, by omega, by omega⟩
          · cases h
        · cases h
    · rintro (⟨rfl, rfl, rfl⟩ | ⟨u, v, rfl, hdu, hdv, rfl, rfl, hab, h1, h2⟩)
      · simp [parseRange]
      · have hdu' : (u.length = 1 ∨ u.length = 2) ∧ ∀ c ∈ u, c.isDigit = true := by
          simpa [digits12] using hdu
        have hdv' : (v.length = 1 ∨ v.length = 2) ∧ ∀ c ∈ v, c.isDigit = true := by
          simpa [digits12] using hdv
        have hulen := hdu'.1
        have hne : ¬ (u ++ '-' :: v) = ['*'] := by
          intro he
          have := congrArg List.length he
          simp [List.length_append] at this
          omega
        have hnd : ∀ c ∈ u, c ≠ '-' := by
          intro c hc he
          have := hdu'.2 c hc
          rw [he] at this
          exact absurd this (by decide)
        have hnd2 : ∀ c ∈ v, c ≠ '-' := by
          intro c hc he
          have := hdv'.2 c hc
          rw [he] at this
          exact absurd this (by decide)
        unfold parseRange
        rw [if_neg hne, splitOnChar_append hnd hnd2]
        dsimp only
        rw [if_pos (by simp [hdu, hdv]), if_neg (by simp; omega)]
  · intro st
    cases st <;> rfl

/-- Concrete instantiation of `C3_parseRange_characterization`:
the token `1-5` resolves to `[1, 5]` over the Minute domain. -/
theorem C3_witness :
    parseRange ['1', '-', '5'] (0, 59) = some (1, 5) :=
  (C3_parseRange_characterization.1 ['1', '-', '5'] (0, 59) 1 5).mpr
    (Or.inr ⟨['1'], ['5'], by decide, by decide, by decide, by decide,
      by decide, by decide, by decide, by decide⟩)

/-- Claim C4: for DayOfWeek, after all items are resolved, if `7` occurs in
the accumulated values then `0` is also present in the final set while `7`
itself is kept; `expand("7", DayOfWeek) = {0,7}` and
`expand("0,7", DayOfWeek) = {0,7}`. -/
theorem C4_dow_sunday_fold :
    (∀ expanded : List Nat, 7 ∈ expanded →
        0 ∈ postProcess scheduleDayOfWeek expanded ∧
          7 ∈ postProcess scheduleDayOfWeek expanded)
      ∧ expandField "7" scheduleDayOfWeek = .ok [0, 7]
      ∧ expandField "0,7" scheduleDayOfWeek = .ok [0, 7] := by
  refine ⟨?_, rfl, rfl⟩
  intro expanded h7
  constructor <;> simp [postProcess, h7, mem_sortInts, mem_uniq]

/-- Concrete instantiation of `C4_dow_sunday_fold` at the singleton `[7]`. -/
theorem C4_witness :
    (7 : Nat) ∈ ([7] : List Nat) ∧
      0 ∈ postProcess scheduleDayOfWeek [7] ∧
        7 ∈ postProcess scheduleDayOfWeek [7] :=
  ⟨by decide, C4_dow_sunday_fold.1 [7] (by decide)⟩

/-- Claim C8: alias substitution lowercases the raw field and replaces every
literal occurrence of each alias (in table order, with no word-boundary
check — `sunsun` becomes `00`, which parses as the single value `0`) by its
decimal index, before comma splitting and range parsing;
`expand("mon,wed,fri", DayOfWeek) = {1,3,5}`, mixed case is folded, and an
alias range like `mon-fri` is substituted before `parseRange` runs. -/
theorem C8_alias_substitution :
    expandField "mon,wed,fri" scheduleDayOfWeek = .ok [1, 3, 5] ∧
      expandField "MON,Wed,fri" scheduleDayOfWeek = .ok [1, 3, 5] ∧
      expandField "mon-fri" scheduleDayOfWeek = .ok [1, 2, 3, 4, 5] ∧
      expandField "sunsun" scheduleDayOfWeek = .ok [0] :=
  ⟨rfl, rfl, rfl, rfl⟩

/-- Claim C5 counterexample: at `parseJob("@daily  echo hi", hasUser=false)`
the command is the regex remainder `"  echo hi"` — the two spaces after
`@daily` are part of submatch 2 and `parse` stores it without trimming —
so the command is not `"echo hi"` as the claim states. -/
theorem C5_counterexample :
    (parseJob "@daily  echo hi" false () psId).command ≠ "echo hi" := by
  decide

/-- Claim C5 (amended): `parseJob("@daily  echo hi", hasUser=false, env)`
passes `"@daily"` to the schedule-parsing collaborator and sets the Job's
command to the remainder as-is, `"  echo hi"` (leading whitespace
preserved), succeeding with the collaborator's schedule stored. -/
theorem C5_amended {E σ ε : Type} (env : E) (ps : String → Except ε σ) (sch : σ)
    (hps : ps "@daily" = Except.ok sch) :
    (parseJob "@daily  echo hi" false env ps).command = "  echo hi" ∧
      (parseJob "@daily  echo hi" false env ps).schedule = some sch ∧
      (parseJob "@daily  echo hi" false env ps).err = none := by
  have hkey : parseJob "@daily  echo hi" false env ps
      = (match ps "@daily" with
         | .error e =>
           { raw := "@daily  echo hi", env := env, user := "",
             command := "", schedule := none, err := some (.sched e) }
         | .ok sch =>
           { raw := "@daily  echo hi", env := env, user := "",
             command := "  echo hi", schedule := some sch, err := none }) := rfl
  rw [hkey, hps]
  exact ⟨rfl, rfl, rfl⟩

/-- Concrete instantiation of `C5_amended` with the identity collaborator. -/
theorem C5_witness :
    psId "@daily" = Except.ok "@daily" ∧
      (parseJob "@daily  echo hi" false () psId).command = "  echo hi" ∧
      (parseJob "@daily  echo hi" false () psId).schedule = some "@daily" ∧
      (parseJob "@daily  echo hi" false () psId).err = none :=
  ⟨rfl, (C5_amended () psId "@daily" rfl).1, (C5_amended () psId "@daily" rfl).2.1,
    (C5_amended () psId "@daily" rfl).2.2⟩

/-- Claim C6 counterexample: on `"* * * * * root"` with `hasUser = true` the
schedule prefix and the collaborator both succeed, the user/command split of
the single-token remainder fails, and the resulting Job carries a non-nil
error while its schedule field is still populated — not all-zero as the
claim states. -/
theorem C6_counterexample :
    (parseJob "* * * * * root" true () psId).err ≠ none ∧
      (parseJob "* * * * * root" true () psId).schedule ≠ none :=
  ⟨by decide, by decide⟩

/-- Claim C6 (amended): a Job with nil error has a populated schedule; a Job
with non-nil error has zero user and command fields, and its schedule is nil
unless the failure came from the user/command split (prefix mismatch and
collaborator errors leave schedule nil, but a failed split occurs after the
schedule was already assigned, so schedule stays populated there). -/
theorem C6_amended {E σ ε : Type} (raw : String) (hasUser : Bool) (env : E)
    (ps : String → Except ε σ) :
    ((parseJob raw hasUser env ps).err = none →
        (parseJob raw hasUser env ps).schedule ≠ none) ∧
      ((parseJob raw hasUser env ps).err ≠ none →
        (parseJob raw hasUser env ps).user = "" ∧
          (parseJob raw hasUser env ps).command = "" ∧
          ((parseJob raw hasUser env ps).schedule = none ∨
            (hasUser = true ∧
              (parseJob raw hasUser env ps).err = some (.invalidField raw)))) := by
  unfold parseJob
  dsimp only
  split
  · exact ⟨fun h => absurd h (by simp), fun _ => ⟨rfl, rfl, Or.inl rfl⟩⟩
  · split
    · exact ⟨fun h => absurd h (by simp), fun _ => ⟨rfl, rfl, Or.inl rfl⟩⟩
    · split
      · rename_i hu
        split
        · exact ⟨fun _ => by simp, fun h => absurd rfl h⟩
        · exact ⟨fun h => absurd h (by simp),
            fun _ => ⟨rfl, rfl, Or.inr ⟨hu, rfl⟩⟩⟩
      · exact ⟨fun _ => by simp, fun h => absurd rfl h⟩

/-- Concrete instantiation of `C6_amended` at the failed-split input. -/
theorem C6_witness :
    (parseJob "* * * * * root" true () psId).user = "" ∧
      (parseJob "* * * * * root" true () psId).command = "" ∧
      ((parseJob "* * * * * root" true () psId).schedule = none ∨
        (true = true ∧
          (parseJob "* * * * * root" true () psId).err
            = some (.invalidField "* * * * * root"))) :=
  (C6_amended "* * * * * root" true () psId).2 (by decide)

/-- Claim C9: `parseJob` is total (the Go function always returns a non-nil
`*Job`), and for every input string, `hasUser` flag, environment and
collaborator, the returned Job's raw accessor is the original input
unchanged and its env accessor is the given mapping, on success and on
failure alike. -/
theorem C9_raw_env_preserved {E σ ε : Type} (raw : String) (hasUser : Bool)
    (env : E) (ps : String → Except ε σ) :
    (parseJob raw hasUser env ps).raw = raw ∧
      (parseJob raw hasUser env ps).env = env := by
  unfold parseJob
  dsimp only
  split
  · exact ⟨rfl, rfl⟩
  · split
    · exact ⟨rfl, rfl⟩
    · split
      · split
        · exact ⟨rfl, rfl⟩
        · exact ⟨rfl, rfl⟩
      · exact ⟨rfl, rfl⟩

/-! ### `fieldsN` scanning lemmas -/

/-- Scanning a run of non-space characters accumulates them into the buffer
(in reverse) without emitting anything, as long as the counter allows. -/
theorem fieldsNAux_token (tok : List Char) :
    ∀ (rest : List Char) (n : Int) (buf : List Char) (acc : List String),
      ¬ n < 2 → (∀ c ∈ tok, isSpaceGo c = false) →
      fieldsNAux (tok ++ rest) n buf acc
        = fieldsNAux rest n (tok.reverse ++ buf) acc := by
  induction tok with
  | nil => intro rest n buf acc _ _; simp
  | cons c tok' ih =>
    intro rest n buf acc hn hta
    have hc : isSpaceGo c = false := hta c (List.mem_cons_self c tok')
    show fieldsNAux (c :: (tok' ++ rest)) n buf acc = _
    simp only [fieldsNAux, if_neg hn, hc, Bool.false_eq_true, if_false]
    rw [ih rest n (c :: buf) acc hn
      fun x hx => hta x (List.mem_cons_of_mem c hx)]
    simp

/-- A space character with a nonempty buffer and counter `2` emits the
buffered token and decrements the counter. -/
theorem fieldsNAux_space (r : Char) (rest : List Char) (buf : List Char)
    (acc : List String) (hr : isSpaceGo r = true) (hbuf : buf ≠ []) :
    fieldsNAux (r :: rest) 2 buf acc
      = fieldsNAux rest 1 [] (acc ++ [String.mk buf.reverse]) := by
  have hbe : buf.isEmpty = false := by
    cases buf with
    | nil => exact absurd rfl hbuf
    | cons _ _ => rfl
  simp [fieldsNAux, hr, hbe]

/-- With the counter below `2` and an empty buffer, the scan emits the rest
of the string trimmed and stops. -/
theorem fieldsNAux_break (c : Char) (rest : List Char) (acc : List String) :
    fieldsNAux (c :: rest) 1 [] acc = acc ++ [String.mk (trimGo (c :: rest))] := by
  simp [fieldsNAux]

/-- Claim C7: when `hasUser` is true and the schedule prefix and collaborator
succeed, the remainder is split into exactly the first whitespace-delimited
token (the user) and everything after it trimmed of outer whitespace with
internal whitespace preserved (the command); a split that does not yield
exactly two fields fails the job with the invalid-field error; in particular
`parseJob("*/5 * * * * root echo  hi", hasUser=true)` gives user `"root"`
and command `"echo  hi"` with the internal double space preserved. -/
theorem C7_user_command_split :
    (∀ {E σ ε : Type} (env : E) (ps : String → Except ε σ) (raw : String)
        (sch : σ) (m1 m2 tok rest : List Char) (r : Char),
        matchScheduleReg (trimGo raw.data) = some (m1, m2) →
        ps (String.mk (trimGo m1)) = Except.ok sch →
        trimGo m2 = tok ++ r :: rest →
        tok ≠ [] → (∀ c ∈ tok, isSpaceGo c = false) → isSpaceGo r = true →
        rest ≠ [] →
        (parseJob raw true env ps).user = String.mk tok ∧
          (parseJob raw true env ps).command = String.mk (trimGo rest) ∧
          (parseJob raw true env ps).err = none)
      ∧ (∀ {E σ ε : Type} (env : E) (ps : String → Except ε σ) (raw : String)
          (sch : σ) (m1 m2 : List Char),
          matchScheduleReg (trimGo raw.data) = some (m1, m2) →
          ps (String.mk (trimGo m1)) = Except.ok sch →
          (fieldsNGo (String.mk m2) 2).length ≠ 2 →
          (parseJob raw true env ps).err = some (.invalidField raw))
      ∧ (∀ {E σ ε : Type} (env : E) (ps : String → Except ε σ) (sch : σ),
          ps "*/5 * * * *" = Except.ok sch →
          (parseJob "*/5 * * * * root echo  hi" true env ps).user = "root" ∧
            (parseJob "*/5 * * * * root echo  hi" true env ps).command
              = "echo  hi") := by
  refine ⟨?_, ?_, ?_⟩
  · intro E σ ε env ps raw sch m1 m2 tok rest r hm hps hdec htok hta hr hrest
    have hfields : fieldsNGo (String.mk m2) 2
        = [String.mk tok, String.mk (trimGo rest)] := by
      unfold fieldsNGo
      rw [show (String.mk m2).data = m2 from rfl, hdec]
      rw [fieldsNAux_token tok (r :: rest) 2 [] [] (by decide) hta]
      rw [List.append_nil]
      rw [fieldsNAux_space r rest tok.reverse []
        hr (by simpa using htok)]
      rw [List.reverse_reverse, List.nil_append]
      cases rest with
      | nil => exact absurd rfl hrest
      | cons c rest' =>
        rw [fieldsNAux_break]
        rfl
    have hkey : parseJob raw true env ps
        = { raw := raw, env := env, user := String.mk tok,
            command := String.mk (trimGo rest), schedule := some sch,
            err := none } := by
      unfold parseJob
      dsimp only
      rw [hm]
      dsimp only
      rw [hps]
      dsimp only
      rw [hfields]
      rfl
    rw [hkey]
    exact ⟨rfl, rfl, rfl⟩
  · intro E σ ε env ps raw sch m1 m2 hm hps hlen
    unfold parseJob
    dsimp only
    rw [hm]
    dsimp only
    rw [hps]
    dsimp only
    rcases hfl : fieldsNGo (String.mk m2) 2 with _ | ⟨u, _ | ⟨c, _ | ⟨d, t⟩⟩⟩
    · rfl
    · rfl
    · refine absurd ?_ hlen
      rw [hfl]
      rfl
    · rfl
  · intro E σ ε env ps sch hps
    have hkey : parseJob "*/5 * * * * root echo  hi" true env ps
        = (match ps "*/5 * * * *" with
           | .error e =>
             { raw := "*/5 * * * * root echo  hi", env := env, user := "",
               command := "", schedule := none, err := some (.sched e) }
           | .ok sch =>
             { raw := "*/5 * * * * root echo  hi", env := env, user := "root",
               command := "echo  hi", schedule := some sch, err := none }) := rfl
    rw [hkey, hps]
    exact ⟨rfl, rfl⟩

/-- Concrete instantiation of `C7_user_command_split`'s example conjunct. -/
theorem C7_witness :
    psId "*/5 * * * *" = Except.ok "*/5 * * * *" ∧
      (parseJob "*/5 * * * * root echo  hi" true () psId).user = "root" ∧
      (parseJob "*/5 * * * * root echo  hi" true () psId).command = "echo  hi" :=
  ⟨rfl, C7_user_command_split.2.2 () psId "*/5 * * * *" rfl⟩

/-- Concrete instantiation of `C9_raw_env_preserved`. -/
theorem C9_witness :
    (parseJob "@daily hello" false () psId).raw = "@daily hello" ∧
      (parseJob "@daily hello" false () psId).env = () :=
  C9_raw_env_preserved "@daily hello" false () psId

/-! ### `consumeReps` lemmas -/

/-- One `\S+\s+` repetition consumes a nonempty nonspace run followed by a
nonempty space run, provided what follows starts with a nonspace character
(or is the end of the string). -/
theorem consumeReps_cons (k : Nat) (f s rest : List Char)
    (hf : f ≠ []) (hfall : ∀ c ∈ f, isPerlSpace c = false)
    (hs : s ≠ []) (hsall : ∀ c ∈ s, isPerlSpace c = true)
    (hrest : rest = [] ∨ ∃ c rest', rest = c :: rest' ∧ isPerlSpace c = false) :
    consumeReps (k + 1) (f ++ (s ++ rest))
      = Option.map (fun p => (f ++ s ++ p.1, p.2)) (consumeReps k rest) := by
  have hfb : ∀ c ∈ f, (!isPerlSpace c) = true := fun c hc => by
    rw [hfall c hc]; rfl
  have hbound1 : (s ++ rest) = []
      ∨ ∃ c r', s ++ rest = c :: r' ∧ (!isPerlSpace c) = false := by
    refine Or.inr ?_
    cases s with
    | nil => exact absurd rfl hs
    | cons c s' =>
      exact ⟨c, s' ++ rest, rfl, by rw [hsall c (List.mem_cons_self c s')]; rfl⟩
  have h1 := takeWhile_append_boundary hfb hbound1
  have hbound2 : rest = []
      ∨ ∃ c r', rest = c :: r' ∧ isPerlSpace c = false := hrest
  have h2 := takeWhile_append_boundary hsall hbound2
  have hfe : f.isEmpty = false := by
    cases f with
    | nil => exact absurd rfl hf
    | cons _ _ => rfl
  have hse : s.isEmpty = false := by
    cases s with
    | nil => exact absurd rfl hs
    | cons _ _ => rfl
  simp only [consumeReps, h1.1, h1.2, h2.1, h2.2, hfe, hse,
    Bool.false_eq_true, if_false]
  rcases consumeReps k rest with _ | p <;> rfl

/-- Under the same hypotheses, a failing tail keeps the whole match
failing. -/
theorem consumeReps_cons_none (k : Nat) (f s rest : List Char)
    (hf : f ≠ []) (hfall : ∀ c ∈ f, isPerlSpace c = false)
    (hs : s ≠ []) (hsall : ∀ c ∈ s, isPerlSpace c = true)
    (hrest : rest = [] ∨ ∃ c rest', rest = c :: rest' ∧ isPerlSpace c = false)
    (hnone : consumeReps k rest = none) :
    consumeReps (k + 1) (f ++ (s ++ rest)) = none := by
  rw [consumeReps_cons k f s rest hf hfall hs hsall hrest, hnone]
  rfl

/-- A repetition demanded on a bare nonspace run fails: there is no trailing
`\s+` to consume. -/
theorem consumeReps_last (k : Nat) (f : List Char) (hf : f ≠ [])
    (hfall : ∀ c ∈ f, isPerlSpace c = false) :
    consumeReps (k + 1) f = none := by
  have hfb : ∀ c ∈ f, (!isPerlSpace c) = true := fun c hc => by
    rw [hfall c hc]; rfl
  have hfe : f.isEmpty = false := by
    cases f with
    | nil => exact absurd rfl hf
    | cons _ _ => rfl
  simp [consumeReps, takeWhile_run hfb, dropWhile_run hfb, hfe]

/-- Claim C10 counterexample: `"@a b c d e"` trims to exactly five
whitespace-separated fields followed by end of string, yet it is *not*
rejected: the `@\w+` alternative of the pattern matches first (`m1 = "@a"`,
remainder `" b c d e"`), so with a collaborator that accepts `"@a"` the job
parses successfully. -/
theorem C10_counterexample :
    (parseJob "@a b c d e" false () psId).err = none ∧
      (parseJob "@a b c d e" false () psId).schedule = some "@a" :=
  ⟨rfl, rfl⟩

/-- Claim C10 (amended): the five-field branch of the schedule pattern
requires at least one whitespace character after the fifth field, so an
input that trims to exactly five whitespace-separated fields followed
immediately by end of string — *and on which the `@`-token branch of the
pattern fails* (e.g. it does not begin with `@`) — is rejected with the
invalid-field error for either value of `hasUser`; a lone `@`-prefixed word
token does match the pattern, with an empty remainder. -/
theorem C10_five_fields_no_command :
    (∀ {E σ ε : Type} (env : E) (ps : String → Except ε σ) (raw : String)
        (hasUser : Bool) (f1 s1 f2 s2 f3 s3 f4 s4 f5 : List Char),
        trimGo raw.data
          = f1 ++ (s1 ++ (f2 ++ (s2 ++ (f3 ++ (s3 ++ (f4 ++ (s4 ++ f5))))))) →
        (f1 ≠ [] ∧ ∀ c ∈ f1, isPerlSpace c = false) →
        (f2 ≠ [] ∧ ∀ c ∈ f2, isPerlSpace c = false) →
        (f3 ≠ [] ∧ ∀ c ∈ f3, isPerlSpace c = false) →
        (f4 ≠ [] ∧ ∀ c ∈ f4, isPerlSpace c = false) →
        (f5 ≠ [] ∧ ∀ c ∈ f5, isPerlSpace c = false) →
        (s1 ≠ [] ∧ ∀ c ∈ s1, isPerlSpace c = true) →
        (s2 ≠ [] ∧ ∀ c ∈ s2, isPerlSpace c = true) →
        (s3 ≠ [] ∧ ∀ c ∈ s3, isPerlSpace c = true) →
        (s4 ≠ [] ∧ ∀ c ∈ s4, isPerlSpace c = true) →
        branch1 (trimGo raw.data) = none →
        (parseJob raw hasUser env ps).err = some (.invalidField raw))
      ∧ (∀ w : List Char, w ≠ [] → (∀ c ∈ w, isWordChar c = true) →
          matchScheduleReg ('@' :: w) = some ('@' :: w, [])) := by
  constructor
  · intro E σ ε env ps raw hasUser f1 s1 f2 s2 f3 s3 f4 s4 f5 hdec
      h1 h2 h3 h4 h5 hs1 hs2 hs3 hs4 hb1
    have hcons : ∀ (f : List Char), f ≠ [] →
        (∀ c ∈ f, isPerlSpace c = false) → ∀ t : List Char,
        f ++ t = [] ∨ ∃ c r', f ++ t = c :: r' ∧ isPerlSpace c = false := by
      intro f hf hfall t
      cases f with
      | nil => exact absurd rfl hf
      | cons c f' =>
        exact Or.inr ⟨c, f' ++ t, rfl, hfall c (List.mem_cons_self c f')⟩
    have hlastb : f5 = [] ∨ ∃ c r', f5 = c :: r' ∧ isPerlSpace c = false := by
      cases f5 with
      | nil => exact Or.inl rfl
      | cons c f' =>
        exact Or.inr ⟨c, f', rfl, h5.2 c (List.mem_cons_self c f')⟩
    have hnone5 : consumeReps 5 (trimGo raw.data) = none := by
      rw [hdec]
      exact consumeReps_cons_none 4 f1 s1 _ h1.1 h1.2 hs1.1 hs1.2
        (hcons f2 h2.1 h2.2 _)
        (consumeReps_cons_none 3 f2 s2 _ h2.1 h2.2 hs2.1 hs2.2
          (hcons f3 h3.1 h3.2 _)
          (consumeReps_cons_none 2 f3 s3 _ h3.1 h3.2 hs3.1 hs3.2
            (hcons f4 h4.1 h4.2 _)
            (consumeReps_cons_none 1 f4 s4 _ h4.1 h4.2 hs4.1 hs4.2 hlastb
              (consumeReps_last 0 f5 h5.1 h5.2))))
    have hmatch : matchScheduleReg (trimGo raw.data) = none := by
      unfold matchScheduleReg
      rw [hb1]
      unfold branch2
      rw [hnone5]
    unfold parseJob
    dsimp only
    rw [hmatch]
  · intro w hw hwall
    have hwe : w.isEmpty = false := by
      cases w with
      | nil => exact absurd rfl hw
      | cons _ _ => rfl
    unfold matchScheduleReg branch1
    dsimp only
    rw [if_pos rfl, takeWhile_run hwall, dropWhile_run hwall]
    simp [hwe]

/-- Concrete instantiation of `C10_five_fields_no_command`: the bare
five-field line `"* * * * *"` (no command text) is rejected. -/
theorem C10_witness :
    (parseJob "* * * * *" false () psId).err
      = some (.invalidField "* * * * *") :=
  C10_five_fields_no_command.1 () psId "* * * * *" false
    ['*'] [' '] ['*'] [' '] ['*'] [' '] ['*'] [' '] ['*']
    (by decide) ⟨by decide, by decide⟩ ⟨by decide, by decide⟩
    ⟨by decide, by decide⟩ ⟨by decide, by decide⟩ ⟨by decide, by decide⟩
    ⟨by decide, by decide⟩ ⟨by decide, by decide⟩ ⟨by decide, by decide⟩
    ⟨by decide, by decide⟩ rfl

end Checron
